import Mathlib

/-!
# Verification of the Synaptic Resonator core

Shallow embedding of `src/synaptic_resonator/generator.py`, the codec
contract used by `src/main.py` (`waveform.tobytes()`), and the consumer
utilities in `src/play_audio.py` (`convert_to_wav`, `info`).

Modelling conventions:

* Python strings are `List Char` (sequences of code points);
  `ord c` is `Char.toNat`.
* IEEE-754 double values arising in the computation are modelled as exact
  rationals (every finite float is a rational).  Results that are NaN or
  infinite are modelled as `none`.  The final `astype(np.float32)` cast is
  value-level identity in the model; the claims under study are stated
  "within float32 precision".
* The host-library primitives — `uuid.uuid5` (an SHA-1 based hash),
  the seeded `np.random.default_rng` draw streams (`uniform`,
  `standard_normal`, `choice`), `np.sin` and `np.pi` — are abstract
  deterministic functions.  They are collected in a `Primitives`
  structure and every theorem is universally quantified over it, so the
  theorems hold in particular for the actual host primitives.  The spec
  itself (§9) notes that the exact draw sequence is
  implementation-specific; what the code relies on is that each stream is
  a pure function of the seed, which the structure captures.
* Exceptions raised by the code are modelled as `none` results.
-/

set_option linter.unusedVariables false

namespace SynapticResonator

/-- Python `int()` applied to a float/rational: truncation toward zero. -/
def pyInt (q : ℚ) : ℤ := if 0 ≤ q then ⌊q⌋ else ⌈q⌉

/-- The deterministic host primitives used by `generator.py`:
`uuid5Int` models `uuid.uuid5(uuid.NAMESPACE_DNS, text).int`;
`unif seed i` is the `i`-th uniform-[0,1) draw of
`np.random.default_rng(seed)`; `normal seed i` is its `i`-th
standard-normal draw; `sinQ` models `np.sin` on double values and `piQ`
the double value of `np.pi`.  Each stream is a pure function of the seed:
that is exactly the reproducibility contract of `default_rng`. -/
structure Primitives where
  uuid5Int : List Char → ℕ
  unif : ℕ → ℕ → ℚ
  normal : ℕ → ℕ → ℚ
  sinQ : ℚ → ℚ
  piQ : ℚ
  unif_nonneg : ∀ s i, 0 ≤ unif s i
  unif_lt_one : ∀ s i, unif s i < 1

/-- `rng.uniform(lo, hi)`, the `i`-th uniform draw rescaled to `[lo, hi)`. -/
def uniformDraw (P : Primitives) (seed i : ℕ) (lo hi : ℚ) : ℚ :=
  lo + (hi - lo) * P.unif seed i

/-- The sample count `int(sample_rate*duration)` used by `np.linspace`. -/
def numSamples (duration : ℚ) (sample_rate : ℕ) : ℕ :=
  (pyInt (sample_rate * duration)).toNat

/-- The mixed (pre-normalization) waveform of `generate_waveform`:
`t = np.linspace(0, duration, n, endpoint=False)` has `t_k = duration*k/n`;
five frequencies are drawn uniformly from `[100, 1200)` (stream draws
0–4); the loop adds `sin(2π·freqs[i]·t + phase_i)` with `phase_i`
uniform in `[0, 2π)` drawn per iteration (stream draws 5–9); then
`0.1 * standard_normal(n)` noise is added, one draw per sample. -/
def mixedWaveform (P : Primitives) (text : List Char) (duration : ℚ)
    (sample_rate : ℕ) : List ℚ :=
  let seed := P.uuid5Int text % 2 ^ 32
  let n := numSamples duration sample_rate
  let freqs := (List.range 5).map fun i => uniformDraw P seed i 100 1200
  (List.range n).map fun (k : ℕ) =>
    let tk : ℚ := duration * (k : ℚ) / (n : ℚ)
    ((List.range 5).map fun i =>
      P.sinQ (2 * P.piQ * freqs.getD i 0 * tk +
        uniformDraw P seed (5 + i) 0 (2 * P.piQ))).sum
    + 1 / 10 * P.normal seed k

/-- `np.max(np.abs(buf))` for a nonempty `buf` (all entries of
`np.abs buf` are nonnegative, so folding `max` from `0` gives the
maximum of a nonempty list). -/
def maxAbs (buf : List ℚ) : ℚ :=
  buf.foldr (fun x m => max |x| m) 0

/-- `np.max(np.abs(buf))`: raises (`none`) on an empty array. -/
def amax (buf : List ℚ) : Option ℚ :=
  if buf.isEmpty then none else some (maxAbs buf)

/-- Float division `x / m`: `none` models a non-finite result
(`0.0/0.0 = NaN`, `x/0.0 = ±Inf`), which numpy produces silently. -/
def floatDiv (x m : ℚ) : Option ℚ :=
  if m = 0 then none else some (x / m)

/-- `waveform /= np.max(np.abs(waveform))`: outer `none` = `np.max`
raised on an empty buffer; inner `none` entries = NaN samples from a
zero divisor. -/
def normalize (buf : List ℚ) : Option (List (Option ℚ)) :=
  (amax buf).map fun m => buf.map fun x => floatDiv x m

/-- `generate_waveform(text, duration, sample_rate)` from
`generator.py`: mixes the seeded waveform, normalizes it, and returns
the buffer together with the unchanged sample rate. -/
def generate_waveform (P : Primitives) (text : List Char) (duration : ℚ)
    (sample_rate : ℕ) : Option (List (Option ℚ)) × ℕ :=
  (normalize (mixedWaveform P text duration sample_rate), sample_rate)

/-- A concrete instance of the primitives, used to evaluate the model on
closed inputs: all uniform draws are `0`, all normal draws are `1`. -/
def P0 : Primitives where
  uuid5Int := fun _ => 0
  unif := fun _ _ => 0
  normal := fun _ _ => 1
  sinQ := fun _ => 0
  piQ := 355 / 113
  unif_nonneg := fun s i => le_refl 0
  unif_lt_one := fun s i => one_pos

/-- A primitives instance whose streams make every mixed sample zero,
realizing the degenerate all-zero buffer. -/
def Pdeg : Primitives where
  uuid5Int := fun _ => 0
  unif := fun _ _ => 0
  normal := fun _ _ => 0
  sinQ := fun _ => 0
  piQ := 355 / 113
  unif_nonneg := fun s i => le_refl 0
  unif_lt_one := fun s i => one_pos

theorem mixedWaveform_length (P : Primitives) (text : List Char)
    (duration : ℚ) (sample_rate : ℕ) :
    (mixedWaveform P text duration sample_rate).length =
      numSamples duration sample_rate := by
  simp [mixedWaveform]

theorem normalize_of_ne_nil {buf : List ℚ} (h : buf ≠ []) :
    normalize buf = some (buf.map fun x => floatDiv x (maxAbs buf)) := by
  simp [normalize, amax, h]

theorem normalize_nil : normalize [] = none := by
  simp [normalize, amax]

/-- Python `str.split()` with no argument: split on runs of whitespace
and drop empty pieces.  `acc` holds the current token, reversed. -/
def pySplitAux : List Char → List Char → List (List Char)
  | [], acc => if acc.isEmpty then [] else [acc.reverse]
  | c :: cs, acc =>
    if c.isWhitespace then
      if acc.isEmpty then pySplitAux cs [] else acc.reverse :: pySplitAux cs []
    else pySplitAux cs (c :: acc)

/-- `text.split()` from `generate_fragment`. -/
def pySplit (text : List Char) : List (List Char) :=
  pySplitAux text []

/-- `sum(ord(c) for c in text)`, the fragment seed. -/
def charSum (text : List Char) : ℕ :=
  (text.map Char.toNat).sum

/-- `rng.choice(xs)` for a nonempty sequence `xs`: the `i`-th draw of the
stream selects index `⌊len(xs) · u⌋` with `u` the uniform draw, which is
in range because `0 ≤ u < 1`. -/
def npChoice (P : Primitives) (seed i : ℕ) (xs : List (List Char)) :
    List Char :=
  xs.getD (Nat.floor ((xs.length : ℚ) * P.unif seed i)) []

/-- The fixed abstract vocabulary of `generate_fragment`. -/
def abstractVocab : List (List Char) :=
  ["veil", "echo", "rift", "pulse", "haze", "shard", "lumen",
    "flux"].map String.toList

/-- `" ".join(ws)`. -/
def spaceJoin : List (List Char) → List Char
  | [] => []
  | [w] => w
  | w :: ws => w ++ ' ' :: spaceJoin ws

/-- `generate_fragment(text)` from `generator.py`: split the text into
words, seed an `np.random.default_rng` with the character-sum, pick the
cryptic word (`rng.choice(words)` — a draw that happens only when
`words` is nonempty, hence the stream offset of the three vocabulary
draws differs between the branches), pick three vocabulary words, and
join everything with single spaces (`f-string` of the cryptic word and
the joined fragment). -/
def generate_fragment (P : Primitives) (text : List Char) : List Char :=
  let words := pySplit text
  let seed := charSum text
  if words.isEmpty then
    String.toList "echo" ++ ' ' :: spaceJoin
      [npChoice P seed 0 abstractVocab, npChoice P seed 1 abstractVocab,
        npChoice P seed 2 abstractVocab]
  else
    npChoice P seed 0 words ++ ' ' :: spaceJoin
      [npChoice P seed 1 abstractVocab, npChoice P seed 2 abstractVocab,
        npChoice P seed 3 abstractVocab]

/-- One invocation of the synthesis pipeline of `main.py`'s `resonate`
(the two generator calls), placed in an ambient context of a wall-clock
reading and a process id.  The source functions read neither — they take
only the text and the numeric configuration — so the two extra
parameters are unused, which is exactly what the determinism claim
asserts. -/
def invokeResonator (wallClock pid : ℕ) (P : Primitives)
    (text : List Char) (duration : ℚ) (sample_rate : ℕ) :
    (Option (List (Option ℚ)) × ℕ) × List Char :=
  (generate_waveform P text duration sample_rate, generate_fragment P text)

/-- Little-endian byte serialization of one float32 sample, given by its
32-bit pattern `w`: the four bytes of `waveform.tobytes()` per sample. -/
def encodeSample (w : ℕ) : List ℕ :=
  [w % 256, w / 256 % 256, w / 65536 % 256, w / 16777216 % 256]

/-- `waveform.tobytes()`: the samples' bit patterns concatenated as
little-endian 4-byte groups, no header. -/
def encode (buf : List ℕ) : List ℕ :=
  (buf.map encodeSample).flatten

/-- `np.frombuffer(bytes, dtype=np.float32)` at the bit level: regroup
the bytes into 32-bit little-endian words; `none` models the
`ValueError` numpy raises when the byte length is not a multiple of the
4-byte item size. -/
def bytesToWords : List ℕ → Option (List ℕ)
  | [] => some []
  | b0 :: b1 :: b2 :: b3 :: rest =>
    (bytesToWords rest).map fun ws =>
      (b0 + 256 * b1 + 65536 * b2 + 16777216 * b3) :: ws
  | _ => none

/-- The numeric value of an IEEE-754 binary32 bit pattern; `none` for
NaN/Inf patterns (exponent 255).  Finite float values are exact
rationals. -/
def floatOfBits (w : ℕ) : Option ℚ :=
  let sign : ℚ := if w / 2 ^ 31 % 2 = 1 then -1 else 1
  let ex : ℕ := w / 2 ^ 23 % 256
  let frac : ℕ := w % 2 ^ 23
  if ex = 255 then none
  else if ex = 0 then some (sign * (frac : ℚ) / 2 ^ 149)
  else some (sign * (2 ^ 23 + (frac : ℚ)) * (2 : ℚ) ^ ((ex : ℤ) - 150))

/-- `np.clip(x, -1.0, 1.0)` from `convert_to_wav`. -/
def clip (x : ℚ) : ℚ := max (-1) (min x 1)

/-- The 16-bit companion transform of `convert_to_wav`:
`(np.clip(x, -1.0, 1.0) * 32767).astype(np.int16)`.  numpy's float→int
`astype` truncates toward zero (C cast semantics); after clipping the
scaled value lies in `[-32767, 32767]`, so no wrap-around occurs. -/
def toInt16 (x : ℚ) : ℤ := pyInt (clip x * 32767)

/-- `convert_to_wav(raw_file)` from `play_audio.py`, at the level of the
data it moves: the `try` block first decodes the raw bytes
(`np.frombuffer`); on a decode error the exception is caught, `None` is
returned, and — since `wave.open(wav_file, 'wb')` only runs later in the
block — no WAV file is created.  On success the returned `some` value
holds the int16 frames written to the WAV file (`none` entries are
samples whose float value was NaN/Inf). -/
def convert_to_wav (bytes : List ℕ) : Option (List (Option ℤ)) :=
  match bytesToWords bytes with
  | none => none
  | some ws => some (ws.map fun w => (floatOfBits w).map toInt16)

/-- `info(raw_file)` from `play_audio.py`: computes
`samples = len(data) // 4` (Python floor division, applied to any byte
length) and `duration = samples / 44100`, with no divisibility check. -/
def info (data : List ℕ) : ℕ × ℚ :=
  let samples := data.length / 4
  (samples, (samples : ℚ) / 44100)

theorem pyInt_trunc (q : ℚ) :
    |(pyInt q : ℚ)| ≤ |q| ∧ |q| < |(pyInt q : ℚ)| + 1 := by
  unfold pyInt
  by_cases h : 0 ≤ q
  · simp only [if_pos h]
    have h0 : (0 : ℚ) ≤ (⌊q⌋ : ℚ) := by
      exact_mod_cast Int.floor_nonneg.mpr h
    rw [abs_of_nonneg h, abs_of_nonneg h0]
    exact ⟨Int.floor_le q, Int.lt_floor_add_one q⟩
  · push_neg at h
    simp only [if_neg (not_le.mpr h)]
    have hc : (⌈q⌉ : ℚ) ≤ 0 := by
      exact_mod_cast Int.ceil_le.mpr (by exact_mod_cast h.le : q ≤ ((0 : ℤ) : ℚ))
    rw [abs_of_neg h, abs_of_nonpos hc]
    constructor
    · linarith [Int.le_ceil q]
    · have := Int.ceil_lt_add_one q
      linarith

theorem maxAbs_nonneg (buf : List ℚ) : 0 ≤ maxAbs buf := by
  induction buf with
  | nil => simp [maxAbs]
  | cons x xs ih =>
    simp only [maxAbs, List.foldr_cons] at ih ⊢
    exact le_trans ih (le_max_right _ _)

theorem le_maxAbs {buf : List ℚ} {x : ℚ} (h : x ∈ buf) :
    |x| ≤ maxAbs buf := by
  induction buf with
  | nil => simp at h
  | cons y ys ih =>
    simp only [maxAbs, List.foldr_cons]
    rcases List.mem_cons.mp h with rfl | hmem
    · exact le_max_left _ _
    · exact le_trans (ih hmem) (le_max_right _ _)

theorem maxAbs_map_div (buf : List ℚ) {m : ℚ} (hm : 0 < m) :
    maxAbs (buf.map fun x => x / m) = maxAbs buf / m := by
  induction buf with
  | nil => simp [maxAbs]
  | cons x xs ih =>
    simp only [maxAbs, List.map_cons, List.foldr_cons] at ih ⊢
    rw [ih, abs_div, abs_of_pos hm, max_div_div_right hm.le]

theorem generate_waveform_buffer (P : Primitives) (text : List Char)
    (duration : ℚ) (sample_rate : ℕ)
    (h : mixedWaveform P text duration sample_rate ≠ []) :
    (generate_waveform P text duration sample_rate).1 =
      some ((mixedWaveform P text duration sample_rate).map fun x =>
        floatDiv x (maxAbs (mixedWaveform P text duration sample_rate))) := by
  rw [generate_waveform, normalize_of_ne_nil h]

theorem generate_waveform_length (P : Primitives) (text : List Char)
    (duration : ℚ) (sample_rate : ℕ)
    (h : 1 ≤ numSamples duration sample_rate) :
    ((generate_waveform P text duration sample_rate).1).map List.length =
      some (numSamples duration sample_rate) := by
  have hlen := mixedWaveform_length P text duration sample_rate
  have hne : mixedWaveform P text duration sample_rate ≠ [] := by
    intro hnil
    rw [hnil] at hlen
    simp at hlen
    omega
  rw [generate_waveform_buffer P text duration sample_rate hne]
  simp [hlen]

theorem generate_waveform_empty (P : Primitives) (text : List Char)
    (duration : ℚ) (sample_rate : ℕ)
    (h : numSamples duration sample_rate = 0) :
    (generate_waveform P text duration sample_rate).1 = none := by
  have hlen := mixedWaveform_length P text duration sample_rate
  rw [h] at hlen
  rw [generate_waveform, List.eq_nil_of_length_eq_zero hlen, normalize_nil]

theorem pySplitAux_sound :
    ∀ (cs acc : List Char), (∀ c ∈ acc, c.isWhitespace = false) →
      ∀ w ∈ pySplitAux cs acc, w ≠ [] ∧ ∀ c ∈ w, c.isWhitespace = false
  | [], acc, hacc, w, hw => by
    by_cases he : acc.isEmpty
    · simp [pySplitAux, he] at hw
    · simp only [pySplitAux, if_neg he, List.mem_singleton] at hw
      subst hw
      refine ⟨fun hnil => he ?_, fun c hc => hacc c (List.mem_reverse.mp hc)⟩
      rw [List.isEmpty_iff]
      simpa using congrArg List.reverse hnil
  | c :: cs, acc, hacc, w, hw => by
    simp only [pySplitAux] at hw
    by_cases hws : c.isWhitespace
    · rw [if_pos hws] at hw
      by_cases he : acc.isEmpty
      · rw [if_pos he] at hw
        exact pySplitAux_sound cs [] (by simp) w hw
      · rw [if_neg he] at hw
        rcases List.mem_cons.mp hw with rfl | hmem
        · refine ⟨fun hnil => he ?_, fun c hc => hacc c (List.mem_reverse.mp hc)⟩
          rw [List.isEmpty_iff]
          simpa using congrArg List.reverse hnil
        · exact pySplitAux_sound cs [] (by simp) w hmem
    · rw [if_neg hws] at hw
      refine pySplitAux_sound cs (c :: acc) ?_ w hw
      intro d hd
      rcases List.mem_cons.mp hd with rfl | hmem
      · simpa using hws
      · exact hacc d hmem

theorem pySplit_sound {text : List Char} {w : List Char}
    (hw : w ∈ pySplit text) :
    w ≠ [] ∧ ∀ c ∈ w, c.isWhitespace = false :=
  pySplitAux_sound text [] (by simp) w hw

theorem pySplitAux_token {t : List Char}
    (ht : ∀ c ∈ t, c.isWhitespace = false) :
    ∀ (cs acc : List Char),
      pySplitAux (t ++ cs) acc = pySplitAux cs (t.reverse ++ acc) := by
  induction t with
  | nil => intro cs acc; simp
  | cons c t ih =>
    intro cs acc
    have hc : c.isWhitespace = false := ht c (List.mem_cons_self c t)
    simp only [List.cons_append, pySplitAux, hc, Bool.false_eq_true,
      if_false]
    rw [List.append_eq,
      ih (fun d hd => ht d (List.mem_cons_of_mem c hd)) cs (c :: acc)]
    simp

theorem pySplit_token_cons {w : List Char} (hne : w ≠ [])
    (hws : ∀ c ∈ w, c.isWhitespace = false) (cs : List Char) :
    pySplit (w ++ ' ' :: cs) = w :: pySplit cs := by
  unfold pySplit
  rw [pySplitAux_token hws (' ' :: cs) [], List.append_nil]
  have hsp : (' ' : Char).isWhitespace = true := by decide
  have hrev : w.reverse.isEmpty = false := by
    have : w.reverse ≠ [] := by simpa using hne
    simpa [List.isEmpty_iff] using this
  simp [pySplitAux, hsp, hrev]

theorem pySplit_token_single {w : List Char} (hne : w ≠ [])
    (hws : ∀ c ∈ w, c.isWhitespace = false) :
    pySplit w = [w] := by
  unfold pySplit
  rw [show w = w ++ [] by simp, pySplitAux_token hws [] [], List.append_nil]
  have hrev : w.reverse.isEmpty = false := by
    have : w.reverse ≠ [] := by simpa using hne
    simpa [List.isEmpty_iff] using this
  simp [pySplitAux, hrev]

theorem npChoice_mem (P : Primitives) (seed i : ℕ)
    {xs : List (List Char)} (h : xs ≠ []) : npChoice P seed i xs ∈ xs := by
  unfold npChoice
  have hn : 0 < xs.length := List.length_pos.mpr h
  have hu0 := P.unif_nonneg seed i
  have hu1 := P.unif_lt_one seed i
  have hnn : (0 : ℚ) ≤ (xs.length : ℚ) * P.unif seed i := by positivity
  have hlt : (xs.length : ℚ) * P.unif seed i < ((xs.length : ℕ) : ℚ) := by
    calc (xs.length : ℚ) * P.unif seed i
        < (xs.length : ℚ) * 1 :=
          mul_lt_mul_of_pos_left hu1 (by exact_mod_cast hn)
      _ = _ := mul_one _
  have hidx : Nat.floor ((xs.length : ℚ) * P.unif seed i) < xs.length :=
    (Nat.floor_lt hnn).mpr hlt
  rw [List.getD_eq_getElem _ _ hidx]
  exact List.getElem_mem hidx

theorem abstractVocab_sound :
    ∀ w ∈ abstractVocab, w ≠ [] ∧ ∀ c ∈ w, c.isWhitespace = false := by
  decide

theorem abstractVocab_ne_nil : abstractVocab ≠ [] := by decide

theorem echo_sound :
    String.toList "echo" ≠ [] ∧
      ∀ c ∈ String.toList "echo", c.isWhitespace = false := by
  decide

theorem spaceJoin_three (a b c : List Char) :
    spaceJoin [a, b, c] = a ++ ' ' :: (b ++ ' ' :: c) := rfl

theorem pySplit_four {w a b c : List Char}
    (hw : w ≠ [] ∧ ∀ x ∈ w, x.isWhitespace = false)
    (ha : a ≠ [] ∧ ∀ x ∈ a, x.isWhitespace = false)
    (hb : b ≠ [] ∧ ∀ x ∈ b, x.isWhitespace = false)
    (hc : c ≠ [] ∧ ∀ x ∈ c, x.isWhitespace = false) :
    pySplit (w ++ ' ' :: (a ++ ' ' :: (b ++ ' ' :: c))) = [w, a, b, c] := by
  rw [pySplit_token_cons hw.1 hw.2, pySplit_token_cons ha.1 ha.2,
    pySplit_token_cons hb.1 hb.2, pySplit_token_single hc.1 hc.2]

theorem bytesToWords_length :
    ∀ (bs ws : List ℕ), bytesToWords bs = some ws →
      bs.length = 4 * ws.length
  | [], ws, h => by
    simp only [bytesToWords, Option.some_inj] at h
    simp [← h]
  | [b0], ws, h => by simp [bytesToWords] at h
  | [b0, b1], ws, h => by simp [bytesToWords] at h
  | [b0, b1, b2], ws, h => by simp [bytesToWords] at h
  | b0 :: b1 :: b2 :: b3 :: rest, ws, h => by
    simp only [bytesToWords, Option.map_eq_some'] at h
    obtain ⟨ws', hrec, hcons⟩ := h
    have ih := bytesToWords_length rest ws' hrec
    subst hcons
    simp only [List.length_cons, ih]
    ring

theorem bytesToWords_invalid {bs : List ℕ} (h : bs.length % 4 ≠ 0) :
    bytesToWords bs = none := by
  cases hbw : bytesToWords bs with
  | none => rfl
  | some ws =>
    exfalso
    exact h (by rw [bytesToWords_length bs ws hbw]; omega)

theorem bytesToWords_encode :
    ∀ (buf : List ℕ), (∀ w ∈ buf, w < 2 ^ 32) →
      bytesToWords (encode buf) = some buf
  | [], h => by simp [encode, bytesToWords]
  | w :: buf, h => by
    have hw : w < 2 ^ 32 := h w (List.mem_cons_self w buf)
    have ih := bytesToWords_encode buf
      (fun x hx => h x (List.mem_cons_of_mem w hx))
    have henc : encode (w :: buf) = encodeSample w ++ encode buf := by
      simp [encode]
    rw [henc]
    simp only [encodeSample, List.cons_append, List.nil_append,
      bytesToWords, ih, Option.map_some']
    have hval : w % 256 + 256 * (w / 256 % 256) + 65536 * (w / 65536 % 256) +
        16777216 * (w / 16777216 % 256) = w := by omega
    rw [hval]
    simp [List.append_eq, ih]

theorem numSamples_one_two : numSamples 1 2 = 2 := by
  norm_num [numSamples, pyInt]
  decide

theorem P0_mixed_eval : mixedWaveform P0 [] 1 2 = [1 / 10, 1 / 10] := by
  norm_num [mixedWaveform, numSamples, uniformDraw, pyInt, P0,
    List.range_succ]
  rw [show Int.toNat 2 = 2 from rfl]
  simp [List.replicate_succ]

theorem Pdeg_mixed_eval : mixedWaveform Pdeg [] 1 2 = [0, 0] := by
  norm_num [mixedWaveform, numSamples, uniformDraw, pyInt, Pdeg,
    List.range_succ]
  rw [show Int.toNat 2 = 2 from rfl]
  simp [List.replicate_succ]

/-- **C1** Determinism: two invocations of waveform synthesis and
fragment synthesis with the same input text, duration and sample rate —
in arbitrary, possibly different, ambient contexts of wall-clock reading
and process id — return identical buffers and identical fragments.  The
generators derive their seeds purely from the text and draw from PRNG
streams that are pure functions of those seeds, so the ambient context
cannot influence the output. -/
theorem claim_determinism (P : Primitives) (text : List Char)
    (duration : ℚ) (sample_rate wc1 pid1 wc2 pid2 : ℕ) :
    invokeResonator wc1 pid1 P text duration sample_rate =
      invokeResonator wc2 pid2 P text duration sample_rate := rfl

/-- **C2 (counterexample)** The claimed length `round(d·r)` fails: with
`duration = 1/2` and `sample_rate = 3` the code computes
`int(3 · 0.5) = 1` samples (truncation), while `round(3 · 0.5) = 2`. -/
theorem claim_buffer_length_round_cex :
    ((generate_waveform P0 [] (1 / 2) 3).1).map List.length = some 1 ∧
      round ((3 : ℚ) * (1 / 2)) = 2 := by
  constructor
  · have h1 : numSamples (1 / 2) 3 = 1 := by
      norm_num [numSamples, pyInt]
    have := generate_waveform_length P0 [] (1 / 2) 3 (by omega)
    rwa [h1] at this
  · norm_num [round_eq]

/-- **C2 (amended)** Buffer length: the waveform buffer has exactly
`numSamples duration sample_rate = int(sample_rate*duration)` samples —
Python `int()` truncation toward zero of the product, not rounding —
whenever that count is at least 1. -/
theorem claim_buffer_length_trunc (P : Primitives) (text : List Char)
    (duration : ℚ) (sample_rate : ℕ)
    (h : 1 ≤ numSamples duration sample_rate) :
    ((generate_waveform P text duration sample_rate).1).map List.length =
      some (numSamples duration sample_rate) :=
  generate_waveform_length P text duration sample_rate h

/-- Witness for C2 at `duration = 1`, `sample_rate = 2`. -/
theorem claim_buffer_length_trunc_witness :
    1 ≤ numSamples 1 2 ∧
      ((generate_waveform P0 [] 1 2).1).map List.length =
        some (numSamples 1 2) := by
  have h : 1 ≤ numSamples 1 2 := by rw [numSamples_one_two]; omega
  exact ⟨h, claim_buffer_length_trunc P0 [] 1 2 h⟩

/-- **C3** Codec round-trip: decoding (`np.frombuffer`, little-endian
float32) the bytes produced by encoding a buffer (`waveform.tobytes()`)
succeeds and returns the same sample sequence bit-for-bit — hence the
same sample count and element-wise equal float values. -/
theorem claim_codec_roundtrip (buf : List ℕ)
    (h : ∀ w ∈ buf, w < 2 ^ 32) :
    bytesToWords (encode buf) = some buf ∧
      (encode buf).length = 4 * buf.length :=
  ⟨bytesToWords_encode buf h,
    bytesToWords_length (encode buf) buf (bytesToWords_encode buf h)⟩

/-- Witness for C3 on the two-sample buffer `[0.0f, 1.0f]`
(bit patterns `0` and `0x3F800000`). -/
theorem claim_codec_roundtrip_witness :
    (∀ w ∈ [0, 1065353216], w < 2 ^ 32) ∧
      (bytesToWords (encode [0, 1065353216]) = some [0, 1065353216] ∧
        (encode [0, 1065353216]).length = 4 * ([0, 1065353216] : List ℕ).length) :=
  ⟨by decide, claim_codec_roundtrip [0, 1065353216] (by decide)⟩

/-- **C4 (counterexample)** For the 5-byte input `b"\x00" * 5` the
decode path does reject (`np.frombuffer` raises), but `info` — the
describe operation — does not report any error: it computes
`samples = 5 // 4 = 1` and `duration = 1/44100`, interpreting the
malformed input instead of refusing it. -/
theorem claim_describe_invalid_cex :
    (List.replicate 5 (0 : ℕ)).length % 4 ≠ 0 ∧
      info (List.replicate 5 (0 : ℕ)) = (1, 1 / 44100) := by
  refine ⟨by decide, ?_⟩
  simp [info]

/-- **C4 (amended)** Decode (`np.frombuffer`) reports an invalid-length
error for every byte sequence whose length is not a multiple of 4;
`info`, however, performs no such check: for every byte sequence it
computes `sample_count = byte_length // 4` (floor division, silently
ignoring up to 3 trailing bytes) and
`duration = sample_count / 44100`. -/
theorem claim_decode_rejects_describe_computes (bytes : List ℕ) :
    (bytes.length % 4 ≠ 0 → bytesToWords bytes = none) ∧
      (info bytes).1 = bytes.length / 4 ∧
      (info bytes).2 * 44100 = ((info bytes).1 : ℚ) := by
  refine ⟨fun h => bytesToWords_invalid h, rfl, ?_⟩
  simp only [info]
  rw [div_mul_cancel₀ _ (by norm_num : (44100 : ℚ) ≠ 0)]

/-- Witness for C4 at the 5-byte input. -/
theorem claim_decode_rejects_describe_computes_witness :
    (List.replicate 5 (0 : ℕ)).length % 4 ≠ 0 ∧
      bytesToWords (List.replicate 5 (0 : ℕ)) = none ∧
      (info (List.replicate 5 (0 : ℕ))).1 = (List.replicate 5 (0 : ℕ)).length / 4 := by
  have h := claim_decode_rejects_describe_computes (List.replicate 5 (0 : ℕ))
  exact ⟨by decide, h.1 (by decide), h.2.1⟩

/-- **C5** Degenerate buffer (code bug): when every mixed sample is zero
the code performs `waveform /= np.max(np.abs(waveform))` with divisor 0
anyway and silently returns a buffer of NaN samples (modelled `none`)
instead of skipping normalization or failing fast.  Evaluated at a
primitive model whose draws make the mixed buffer `[0, 0]`. -/
theorem claim_degenerate_nan_eval :
    maxAbs (mixedWaveform Pdeg [] 1 2) = 0 ∧
      (generate_waveform Pdeg [] 1 2).1 = some [none, none] := by
  have hmix := Pdeg_mixed_eval
  constructor
  · rw [hmix]
    norm_num [maxAbs]
  · rw [generate_waveform, hmix]
    norm_num [normalize, amax, maxAbs, floatDiv]

/-- **C6 (counterexample)** Totality fails for positive configurations
with `sample_rate · duration < 1`: at `duration = 1/100`,
`sample_rate = 44` the buffer is empty and
`np.max(np.abs(waveform))` raises (modelled `none`) — a failure that is
not the documented degenerate-divisor case. -/
theorem claim_totality_cex :
    (0 : ℚ) < 1 / 100 ∧ (0 : ℕ) < 44 ∧
      (generate_waveform P0 [] (1 / 100) 44).1 = none := by
  refine ⟨by norm_num, by norm_num, ?_⟩
  apply generate_waveform_empty
  norm_num [numSamples, pyInt]

/-- **C6 (amended)** Totality: for every input text and every positive
duration and sample rate whose product truncates to at least one sample,
waveform synthesis returns a buffer (it never raises; in the degenerate
all-zero case the samples are NaN rather than an exception), and
fragment synthesis returns a fragment for every text.  For
`int(sample_rate·duration) = 0` the empty-buffer reduction raises. -/
theorem claim_totality (P : Primitives) (text : List Char) (duration : ℚ)
    (sample_rate : ℕ) (h : 1 ≤ numSamples duration sample_rate) :
    ((generate_waveform P text duration sample_rate).1).isSome = true ∧
      generate_fragment P text ≠ [] := by
  constructor
  · have hmap := generate_waveform_length P text duration sample_rate h
    cases hgw : (generate_waveform P text duration sample_rate).1 with
    | none => rw [hgw] at hmap; simp at hmap
    | some buf => rfl
  · unfold generate_fragment
    by_cases hw : (pySplit text).isEmpty <;> simp [hw]

/-- Witness for C6 at `duration = 1`, `sample_rate = 2`. -/
theorem claim_totality_witness :
    1 ≤ numSamples 1 2 ∧
      (((generate_waveform P0 [] 1 2).1).isSome = true ∧
        generate_fragment P0 [] ≠ []) := by
  have h : 1 ≤ numSamples 1 2 := by rw [numSamples_one_two]; omega
  exact ⟨h, claim_totality P0 [] 1 2 h⟩

/-- **C7** Normalization: whenever the mixed buffer is nonempty and not
identically zero (nonzero divisor), the returned buffer consists of
finite samples whose maximum absolute value is exactly 1 and which all
lie in `[-1, 1]`. -/
theorem claim_normalization_peak (P : Primitives) (text : List Char)
    (duration : ℚ) (sample_rate : ℕ)
    (hne : mixedWaveform P text duration sample_rate ≠ [])
    (hnz : maxAbs (mixedWaveform P text duration sample_rate) ≠ 0) :
    ∃ buf : List ℚ,
      (generate_waveform P text duration sample_rate).1 =
        some (buf.map some) ∧
      maxAbs buf = 1 ∧ ∀ x ∈ buf, |x| ≤ 1 := by
  have hpos : 0 < maxAbs (mixedWaveform P text duration sample_rate) :=
    lt_of_le_of_ne (maxAbs_nonneg _) (Ne.symm hnz)
  refine ⟨(mixedWaveform P text duration sample_rate).map
    (fun x => x / maxAbs (mixedWaveform P text duration sample_rate)),
    ?_, ?_, ?_⟩
  · rw [generate_waveform_buffer P text duration sample_rate hne,
      List.map_map]
    congr 1
    exact List.map_congr_left fun x hx => by simp [floatDiv, hnz]
  · rw [maxAbs_map_div _ hpos, div_self hnz]
  · intro x hx
    obtain ⟨y, hy, rfl⟩ := List.mem_map.mp hx
    rw [abs_div, abs_of_pos hpos]
    exact (div_le_one hpos).mpr (le_maxAbs hy)

/-- Witness for C7: at the model instance `P0` the mixed buffer is
`[1/10, 1/10]`, nonempty with nonzero maximum. -/
theorem claim_normalization_peak_witness :
    mixedWaveform P0 [] 1 2 ≠ [] ∧
      maxAbs (mixedWaveform P0 [] 1 2) ≠ 0 ∧
      ∃ buf : List ℚ,
        (generate_waveform P0 [] 1 2).1 = some (buf.map some) ∧
        maxAbs buf = 1 ∧ ∀ x ∈ buf, |x| ≤ 1 := by
  have h1 : mixedWaveform P0 [] 1 2 ≠ [] := by
    rw [P0_mixed_eval]
    simp
  have h2 : maxAbs (mixedWaveform P0 [] 1 2) ≠ 0 := by
    rw [P0_mixed_eval]
    norm_num [maxAbs]
  exact ⟨h1, h2, claim_normalization_peak P0 [] 1 2 h1 h2⟩

/-- **C8** Fragment structure: for every input text the fragment is a
non-empty string of exactly 4 space-separated tokens; the first token is
one of the input's whitespace-split words — or the fallback `"echo"`
when the input has no words — and the remaining 3 tokens come from the
fixed 8-token vocabulary. -/
theorem claim_fragment_structure (P : Primitives) (text : List Char) :
    generate_fragment P text ≠ [] ∧
      (pySplit (generate_fragment P text)).length = 4 ∧
      ((pySplit (generate_fragment P text)).headD [] ∈ pySplit text ∨
        (pySplit text = [] ∧
          (pySplit (generate_fragment P text)).headD [] =
            String.toList "echo")) ∧
      ∀ w ∈ (pySplit (generate_fragment P text)).tail,
        w ∈ abstractVocab := by
  have hv1 : npChoice P (charSum text) 1 abstractVocab ∈ abstractVocab :=
    npChoice_mem P _ 1 abstractVocab_ne_nil
  have hv2 : npChoice P (charSum text) 2 abstractVocab ∈ abstractVocab :=
    npChoice_mem P _ 2 abstractVocab_ne_nil
  have hv3 : npChoice P (charSum text) 3 abstractVocab ∈ abstractVocab :=
    npChoice_mem P _ 3 abstractVocab_ne_nil
  have hv0 : npChoice P (charSum text) 0 abstractVocab ∈ abstractVocab :=
    npChoice_mem P _ 0 abstractVocab_ne_nil
  by_cases hw : (pySplit text).isEmpty
  · have hnil : pySplit text = [] := by simpa [List.isEmpty_iff] using hw
    have hsplit : pySplit (generate_fragment P text) =
        [String.toList "echo", npChoice P (charSum text) 0 abstractVocab,
          npChoice P (charSum text) 1 abstractVocab,
          npChoice P (charSum text) 2 abstractVocab] := by
      rw [generate_fragment]
      simp only [hw, if_true, spaceJoin_three]
      exact pySplit_four echo_sound (abstractVocab_sound _ hv0)
        (abstractVocab_sound _ hv1) (abstractVocab_sound _ hv2)
    refine ⟨?_, ?_, ?_, ?_⟩
    · rw [generate_fragment]
      simp [hw]
    · rw [hsplit]
      rfl
    · right
      rw [hsplit]
      exact ⟨hnil, rfl⟩
    · rw [hsplit]
      intro w hmem
      simp only [List.tail_cons, List.mem_cons, List.not_mem_nil,
        or_false] at hmem
      rcases hmem with rfl | rfl | rfl
      · exact hv0
      · exact hv1
      · exact hv2
  · have hne : pySplit text ≠ [] := by
      intro hnil
      rw [hnil] at hw
      simp at hw
    have hcr : npChoice P (charSum text) 0 (pySplit text) ∈ pySplit text :=
      npChoice_mem P _ 0 hne
    have hsplit : pySplit (generate_fragment P text) =
        [npChoice P (charSum text) 0 (pySplit text),
          npChoice P (charSum text) 1 abstractVocab,
          npChoice P (charSum text) 2 abstractVocab,
          npChoice P (charSum text) 3 abstractVocab] := by
      rw [generate_fragment]
      simp only [hw, if_false, Bool.false_eq_true, spaceJoin_three]
      exact pySplit_four (pySplit_sound hcr) (abstractVocab_sound _ hv1)
        (abstractVocab_sound _ hv2) (abstractVocab_sound _ hv3)
    refine ⟨?_, ?_, ?_, ?_⟩
    · rw [generate_fragment]
      simp only [hw, if_false, Bool.false_eq_true]
      intro hnil
      exact (pySplit_sound hcr).1 (List.append_eq_nil.mp hnil).1
    · rw [hsplit]
      rfl
    · left
      rw [hsplit]
      exact hcr
    · rw [hsplit]
      intro w hmem
      simp only [List.tail_cons, List.mem_cons, List.not_mem_nil,
        or_false] at hmem
      rcases hmem with rfl | rfl | rfl
      · exact hv1
      · exact hv2
      · exact hv3

/-- **C9 (counterexample)** The 16-bit transform does not round to
nearest: at sample `0.5` the code computes
`int16(0.5 · 32767) = int16(16383.5) = 16383` (truncation), while
rounding to nearest would give `16384`. -/
theorem claim_pcm16_round_cex :
    toInt16 (1 / 2) = 16383 ∧ round ((1 / 2 : ℚ) * 32767) = 16384 := by
  constructor
  · have hc : clip (1 / 2 : ℚ) = 1 / 2 := by
      rw [clip, min_eq_left (by norm_num), max_eq_right (by norm_num)]
    rw [toInt16, hc, pyInt, if_pos (by norm_num)]
    norm_num
  · norm_num [round_eq]

/-- **C9 (amended)** The 16-bit companion transform clamps to `[-1, 1]`
(saturating at `±32767`) and scales by `32767`, then **truncates toward
zero** (numpy `astype(int16)` = C cast): the integer output `z`
satisfies `|z| ≤ 32767·|x| < |z| + 1` for in-range `x`. -/
theorem claim_pcm16_clamp_trunc (x : ℚ) :
    (1 ≤ x → toInt16 x = 32767) ∧ (x ≤ -1 → toInt16 x = -32767) ∧
      (-1 ≤ x → x ≤ 1 →
        |(toInt16 x : ℚ)| ≤ |x| * 32767 ∧
          |x| * 32767 < |(toInt16 x : ℚ)| + 1) := by
  refine ⟨?_, ?_, ?_⟩
  · intro h1
    have hc : clip x = 1 := by
      rw [clip, min_eq_right h1, max_eq_right (by norm_num)]
    rw [toInt16, hc, pyInt, if_pos (by norm_num)]
    norm_num
  · intro h1
    have hc : clip x = -1 := by
      rw [clip, min_eq_left (le_trans h1 (by norm_num)),
        max_eq_left h1]
    rw [toInt16, hc, pyInt, if_neg (by norm_num)]
    norm_num
    rw [show ((-32767 : ℚ)) = ((-32767 : ℤ) : ℚ) by norm_num, Int.ceil_intCast]
  · intro hl hr
    have hc : clip x = x := by rw [clip, min_eq_left hr, max_eq_right hl]
    rw [toInt16, hc]
    have h := pyInt_trunc (x * 32767)
    rwa [abs_mul, show |(32767 : ℚ)| = 32767 by norm_num] at h

/-- Witness for C9 at `x = 1/2`. -/
theorem claim_pcm16_clamp_trunc_witness :
    (-1 : ℚ) ≤ 1 / 2 ∧ (1 / 2 : ℚ) ≤ 1 ∧
      |(toInt16 (1 / 2) : ℚ)| ≤ |(1 / 2 : ℚ)| * 32767 ∧
        |(1 / 2 : ℚ)| * 32767 < |(toInt16 (1 / 2) : ℚ)| + 1 := by
  have h := (claim_pcm16_clamp_trunc (1 / 2)).2.2 (by norm_num) (by norm_num)
  exact ⟨by norm_num, by norm_num, h.1, h.2⟩

/-- **C10** Conversion atomicity: for every raw input whose byte length
is not a multiple of 4, `convert_to_wav` returns `None` (the decode
error is caught) and produces no WAV output — the `some` payload of the
model, holding the frames that would be written, is absent because
decoding fails before the output file is opened. -/
theorem claim_convert_atomic (bytes : List ℕ)
    (h : bytes.length % 4 ≠ 0) : convert_to_wav bytes = none := by
  rw [convert_to_wav, bytesToWords_invalid h]

/-- Witness for C10 at the 5-byte input. -/
theorem claim_convert_atomic_witness :
    (List.replicate 5 (0 : ℕ)).length % 4 ≠ 0 ∧
      convert_to_wav (List.replicate 5 (0 : ℕ)) = none :=
  ⟨by decide, claim_convert_atomic (List.replicate 5 (0 : ℕ)) (by decide)⟩

end SynapticResonator
